import Mathlib

/-!
Verification of the backup-home archive pipeline.

Paths are modelled as lists of segments, and segments (Go strings) as
lists of characters; Go's byte-oriented string primitives coincide with
this model on the ASCII data handled here.  Each definition below is a
direct translation of a function of the repository (or of the Go
standard-library function it calls); the theorems at the end of the
file settle the specification claims against these definitions.
-/

set_option maxHeartbeats 1000000
set_option linter.unusedVariables false

namespace BackupHome

/-- Go strings.HasPrefix s pre. -/
def goStartsWith (s pre : List Char) : Bool := pre.isPrefixOf s

/-- Go strings.HasSuffix s suf. -/
def goEndsWith (s suf : List Char) : Bool := suf.isSuffixOf s

/-- Go strings.Contains s sub. -/
def goContains (s sub : List Char) : Bool := decide (sub <:+: s)

/-- Go strings.TrimPrefix s pre: drops pre when it leads s, else returns s. -/
def goTrimLeading (s pre : List Char) : List Char :=
  if pre.isPrefixOf s then s.drop pre.length else s

/-- Go strings.TrimSuffix s suf: drops suf when it ends s, else returns s. -/
def goTrimTrailing (s suf : List Char) : List Char :=
  if suf.isSuffixOf s then s.take (s.length - suf.length) else s

/-- Go strings.Split s "/" (single-character separator, no limit). -/
def goSplit : List Char → List (List Char)
  | [] => [[]]
  | c :: rest =>
    if c = '/' then [] :: goSplit rest
    else
      match goSplit rest with
      | [] => [[c]]
      | seg :: segs => (c :: seg) :: segs

/-- The segment suffix pattern[LastIndex(pattern, "."):] used by the
extension branch of matchPattern; callers guard it by strings.Contains
(pattern, "."), so a dot is always present. -/
def extAfterLastDot (s : List Char) : List Char :=
  '.' :: (s.reverse.takeWhile (fun c => c ≠ '.')).reverse

/-- Go path/filepath getEsc: reads one (possibly backslash-escaped)
character of a character class; none models ErrBadPattern. -/
def getEsc : List Char → Option (Char × List Char)
  | [] => none
  | c :: p =>
    if c = '-' ∨ c = ']' then none
    else if c = '\\' then
      match p with
      | [] => none
      | d :: p2 => if p2.isEmpty then none else some (d, p2)
    else if p.isEmpty then none else some (c, p)

theorem getEsc_len {ch : List Char} {r : Char} {rest : List Char}
    (h : getEsc ch = some (r, rest)) : rest.length < ch.length := by
  cases ch with
  | nil => simp [getEsc] at h
  | cons c p =>
    simp only [getEsc] at h
    split at h
    · exact absurd h (by simp)
    · split at h
      · cases p with
        | nil => exact absurd h (by simp)
        | cons d p2 =>
          by_cases hp : p2.isEmpty
          · simp [hp] at h
          · simp [hp] at h
            obtain ⟨-, rfl⟩ := h
            simp only [List.length_cons]
            omega
      · by_cases hp : p.isEmpty
        · simp [hp] at h
        · simp [hp] at h
          obtain ⟨-, rfl⟩ := h
          simp only [List.length_cons]
          omega

/-- One lo-hi range of a character class: the getEsc call for lo followed,
when a dash is present, by the getEsc call for hi (filepath.Match,
inside the range-parsing loop of matchChunk). -/
def getRange (chunk : List Char) : Option (Char × Char × List Char) :=
  match getEsc chunk with
  | none => none
  | some (lo, ch1) =>
    if ch1.head? = some '-' then
      match getEsc ch1.tail with
      | none => none
      | some (hi, ch2) => some (lo, hi, ch2)
    else some (lo, lo, ch1)

theorem getRange_len {chunk : List Char} {lo hi : Char} {rest : List Char}
    (h : getRange chunk = some (lo, hi, rest)) : rest.length < chunk.length := by
  unfold getRange at h
  split at h
  · exact absurd h (by simp)
  · rename_i lo1 ch1 hg
    split at h
    · rename_i hd
      split at h
      · exact absurd h (by simp)
      · rename_i hi1 ch2 hg2
        cases h
        have h1 : rest.length < ch1.tail.length := getEsc_len hg2
        have h2 : ch1.tail.length ≤ ch1.length := by
          rw [List.length_tail]
          omega
        exact lt_of_lt_of_le (lt_of_lt_of_le h1 h2) (le_of_lt (getEsc_len hg))
    · cases h
      exact getEsc_len hg

/-- The range-parsing loop of filepath.Match's matchChunk, "[" case:
r is the character read from the name, m the running match flag, nr the
number of ranges parsed so far; returns the chunk after the closing
bracket together with the match flag, or none for ErrBadPattern. -/
def classLoop (r : Char) (nr : Nat) (m : Bool) (chunk : List Char) :
    Option (List Char × Bool) :=
  if chunk.head? = some ']' ∧ 0 < nr then some (chunk.tail, m)
  else
    match hg : getRange chunk with
    | none => none
    | some (lo, hi, ch2) =>
      classLoop r (nr + 1) (m || (decide (lo ≤ r) && decide (r ≤ hi))) ch2
termination_by chunk.length
decreasing_by exact getRange_len hg

theorem classLoop_len_aux (n : Nat) :
    ∀ {r : Char} {nr : Nat} {m : Bool} {chunk rest : List Char} {b : Bool},
      chunk.length ≤ n → classLoop r nr m chunk = some (rest, b) →
      rest.length ≤ chunk.length := by
  induction n with
  | zero =>
    intro r nr m chunk rest b hlen h
    have hc : chunk = [] := by
      cases chunk with
      | nil => rfl
      | cons a l => simp at hlen
    subst hc
    rw [classLoop] at h
    simp [getRange, getEsc] at h
  | succ n ih =>
    intro r nr m chunk rest b hlen h
    rw [classLoop] at h
    split at h
    · cases h
      rw [List.length_tail]
      omega
    · split at h
      · exact absurd h (by simp)
      · rename_i lo hi ch2 hg
        have h2 := getRange_len hg
        have h1 := ih (by omega) h
        omega

theorem classLoop_len {r : Char} {nr : Nat} {m : Bool} {chunk rest : List Char}
    {b : Bool} (h : classLoop r nr m chunk = some (rest, b)) :
    rest.length ≤ chunk.length :=
  classLoop_len_aux chunk.length le_rfl h

/-- Go filepath.Match's matchChunk (non-Windows), with its failed flag:
none models ErrBadPattern; some none models ok = false; some (some t)
models ok = true with remaining name t.  After a failure the loop keeps
checking that the remaining chunk is well formed without reading the
name, exactly as in the source. -/
def matchChunk (chunk s : List Char) (failed : Bool) : Option (Option (List Char)) :=
  match chunk with
  | [] => if failed then some none else some (some s)
  | c :: ch =>
    let failed1 := failed || s.isEmpty
    if c = '[' then
      let r := if failed1 then Char.ofNat 0 else s.headD (Char.ofNat 0)
      let s1 := if failed1 then s else s.tail
      let negated := ch.head? == some '^'
      match hc : classLoop r 0 false (if negated then ch.tail else ch) with
      | none => none
      | some (ch2, m) => matchChunk ch2 s1 (failed1 || (m == negated))
    else if c = '?' then
      let failed2 := failed1 || decide (s.headD (Char.ofNat 0) = '/')
      let s1 := if failed1 then s else s.tail
      matchChunk ch s1 failed2
    else if c = '\\' then
      match ch with
      | [] => none
      | d :: ch2 =>
        let failed2 := failed1 || !(d = s.headD (Char.ofNat 0))
        let s1 := if failed1 then s else s.tail
        matchChunk ch2 s1 failed2
    else
      let failed2 := failed1 || !(c = s.headD (Char.ofNat 0))
      let s1 := if failed1 then s else s.tail
      matchChunk ch s1 failed2
termination_by chunk.length
decreasing_by
  · have h2 := classLoop_len hc
    have h4 : ch2.length ≤ rest.length := by
      refine le_trans h2 ?_
      split
      · rw [List.length_tail]; omega
      · omega
    simp only [List.length_cons]
    omega
  · simp only [List.length_cons]; omega
  · simp only [List.length_cons]; omega
  · simp only [List.length_cons]; omega

/-- The chunk scan of Go filepath.Match's scanChunk, after leading stars
have been removed: returns the chunk up to the next unbracketed star and
the remaining pattern (inrange tracks an open character class). -/
def chunkSplit (inrange : Bool) : List Char → List Char × List Char
  | [] => ([], [])
  | c :: p =>
    if c = '\\' then
      match p with
      | [] => (['\\'], [])
      | d :: p2 => ('\\' :: d :: (chunkSplit inrange p2).1, (chunkSplit inrange p2).2)
    else if c = '[' then (c :: (chunkSplit true p).1, (chunkSplit true p).2)
    else if c = ']' then (c :: (chunkSplit false p).1, (chunkSplit false p).2)
    else if c = '*' ∧ inrange = false then ([], c :: p)
    else (c :: (chunkSplit inrange p).1, (chunkSplit inrange p).2)

theorem chunkSplit_nil (inr : Bool) : chunkSplit inr [] = ([], []) := by
  rw [chunkSplit.eq_def]

theorem chunkSplit_esc_nil (inr : Bool) : chunkSplit inr ['\\'] = (['\\'], []) := by
  rw [chunkSplit.eq_def]
  norm_num

theorem chunkSplit_esc (inr : Bool) (d : Char) (p2 : List Char) :
    chunkSplit inr ('\\' :: d :: p2) =
      ('\\' :: d :: (chunkSplit inr p2).1, (chunkSplit inr p2).2) := by
  rw [chunkSplit.eq_def]
  norm_num

theorem chunkSplit_lbr (inr : Bool) (p : List Char) :
    chunkSplit inr ('[' :: p) = ('[' :: (chunkSplit true p).1, (chunkSplit true p).2) := by
  rw [chunkSplit.eq_def]
  norm_num
  intro h
  exact absurd h (by decide)

theorem chunkSplit_rbr (inr : Bool) (p : List Char) :
    chunkSplit inr (']' :: p) = (']' :: (chunkSplit false p).1, (chunkSplit false p).2) := by
  rw [chunkSplit.eq_def]
  norm_num
  rw [if_neg (by decide : ¬ (']' : Char) = '\\'), if_neg (by decide : ¬ (']' : Char) = '[')]

theorem chunkSplit_star (p : List Char) :
    chunkSplit false ('*' :: p) = ([], '*' :: p) := by
  rw [chunkSplit.eq_def]
  norm_num
  rw [if_neg (by decide : ¬ ('*' : Char) = '\\'), if_neg (by decide : ¬ ('*' : Char) = '['),
    if_neg (by decide : ¬ ('*' : Char) = ']')]

theorem chunkSplit_other {c : Char} (h1 : c ≠ '\\') (h2 : c ≠ '[') (h3 : c ≠ ']')
    {inr : Bool} (h4 : ¬(c = '*' ∧ inr = false)) (p : List Char) :
    chunkSplit inr (c :: p) = (c :: (chunkSplit inr p).1, (chunkSplit inr p).2) := by
  rw [chunkSplit.eq_def]
  simp only [if_neg h1, if_neg h2, if_neg h3, if_neg h4]

theorem chunkSplit_parts_aux (n : Nat) :
    ∀ (inrange : Bool) (l : List Char), l.length ≤ n →
      (chunkSplit inrange l).1.length + (chunkSplit inrange l).2.length = l.length := by
  induction n with
  | zero =>
    intro inr l hl
    have hnil : l = [] := by
      cases l with
      | nil => rfl
      | cons a t => simp at hl
    subst hnil
    simp [chunkSplit_nil]
  | succ n ih =>
    intro inr l hl
    cases l with
    | nil => simp [chunkSplit_nil]
    | cons c p =>
      simp only [List.length_cons] at hl
      by_cases h1 : c = '\\'
      · subst h1
        cases p with
        | nil => simp [chunkSplit_esc_nil]
        | cons d p2 =>
          simp only [List.length_cons] at hl
          have h2 := ih inr p2 (by omega)
          simp only [chunkSplit_esc, List.length_cons]
          omega
      · by_cases h2 : c = '['
        · subst h2
          have h3 := ih true p (by omega)
          simp only [chunkSplit_lbr, List.length_cons]
          omega
        · by_cases h3 : c = ']'
          · subst h3
            have h4 := ih false p (by omega)
            simp only [chunkSplit_rbr, List.length_cons]
            omega
          · by_cases h4 : c = '*' ∧ inr = false
            · obtain ⟨rfl, rfl⟩ := h4
              simp [chunkSplit_star]
            · have h5 := ih inr p (by omega)
              simp only [chunkSplit_other h1 h2 h3 h4, List.length_cons]
              omega

theorem chunkSplit_parts (inrange : Bool) (l : List Char) :
    (chunkSplit inrange l).1.length + (chunkSplit inrange l).2.length = l.length :=
  chunkSplit_parts_aux l.length inrange l le_rfl

theorem chunkSplit_ne {l : List Char} (hne : l ≠ []) (hhd : l.head? ≠ some '*') :
    (chunkSplit false l).1 ≠ [] := by
  cases l with
  | nil => exact absurd rfl hne
  | cons c p =>
    have hc : c ≠ '*' := by
      intro h
      exact hhd (by simp [h])
    by_cases h1 : c = '\\'
    · subst h1
      cases p with
      | nil => simp [chunkSplit_esc_nil]
      | cons d p2 => simp [chunkSplit_esc]
    · by_cases h2 : c = '['
      · subst h2
        simp [chunkSplit_lbr]
      · by_cases h3 : c = ']'
        · subst h3
          simp [chunkSplit_rbr]
        · have h4 : ¬(c = '*' ∧ false = false) := by
            intro h
            exact hc h.1
          simp [chunkSplit_other h1 h2 h3 h4]

/-- After dropping the leading stars of a nonempty pattern, the pattern
left over past the first chunk is strictly shorter than the pattern:
scanChunk always consumes at least one character. -/
theorem chunkRest_lt {pattern : List Char} (hne : pattern ≠ []) :
    (chunkSplit false (pattern.dropWhile (fun c => c = '*'))).2.length <
      pattern.length := by
  obtain ⟨c, pp, rfl⟩ : ∃ c pp, pattern = c :: pp := by
    cases pattern with
    | nil => exact absurd rfl hne
    | cons c pp => exact ⟨c, pp, rfl⟩
  by_cases hs : c = '*'
  · subst hs
    have h1 : ('*' :: pp).dropWhile (fun c => c = '*') = pp.dropWhile (fun c => c = '*') := by
      simp [List.dropWhile_cons]
    rw [h1]
    have h2 := chunkSplit_parts false (pp.dropWhile (fun c => c = '*'))
    have h3 : (pp.dropWhile (fun c => c = '*')).length ≤ pp.length :=
      (List.dropWhile_sublist _).length_le
    simp only [List.length_cons]
    omega
  · have h1 : (c :: pp).dropWhile (fun c => c = '*') = c :: pp := by
      simp [List.dropWhile_cons, hs]
    rw [h1]
    have h2 := chunkSplit_parts false (c :: pp)
    have h3 : (chunkSplit false (c :: pp)).1 ≠ [] := by
      refine chunkSplit_ne (by simp) ?_
      simp [hs]
    have h4 : 0 < (chunkSplit false (c :: pp)).1.length := List.length_pos.mpr h3
    omega

/-- The inner retry loop of filepath.Match run for a starred chunk: tries
the chunk at each later position of the name (never skipping past a
separator); returns the remaining name at the first acceptable position,
none when the loop exhausts the name or the chunk is malformed (both of
which make Match return false).  lastChunk records len(pattern) == 0. -/
def starRetry (chunk : List Char) (lastChunk : Bool) : List Char → Option (List Char)
  | [] => none
  | c :: rest =>
    if c = '/' then none
    else
      match matchChunk chunk rest false with
      | none => none
      | some none => starRetry chunk lastChunk rest
      | some (some t) =>
        if lastChunk ∧ t ≠ [] then starRetry chunk lastChunk rest else some t

/-- Go path/filepath.Match (non-Windows), modelled as a Bool: a malformed
pattern yields matched = false in the source, and both call sites in the
repository treat (matched, err) exactly as that Bool. -/
def goMatch (pattern name : List Char) : Bool :=
  if h : pattern.isEmpty then name.isEmpty
  else
    let star := pattern.head? == some '*'
    let chunk := (chunkSplit false (pattern.dropWhile (fun c => c = '*'))).1
    let rest := (chunkSplit false (pattern.dropWhile (fun c => c = '*'))).2
    if star ∧ chunk = [] then !(name.contains '/')
    else
      match matchChunk chunk name false with
      | none => false
      | some (some t) =>
        if t = [] ∨ rest ≠ [] then goMatch rest t
        else if star then
          match starRetry chunk (rest = []) name with
          | some t2 => goMatch rest t2
          | none => false
        else false
      | some none =>
        if star then
          match starRetry chunk (rest = []) name with
          | some t2 => goMatch rest t2
          | none => false
        else false
termination_by pattern.length
decreasing_by
  all_goals exact chunkRest_lt (by simpa using h)

mutual
/-- backup/pattern.go matchPattern (the non-Windows, case-sensitive
branches): extension patterns (leading star and a dot) test the suffix
of the final path segment; a `**` segment tries the remaining pattern at
every drop of the path; otherwise the head segments are compared with
filepath.Match and matching continues pairwise. -/
def matchPattern : List (List Char) → List (List Char) → Bool
  | [], path => path.isEmpty
  | p :: ps, path =>
    if path.isEmpty then false
    else if goStartsWith p ['*'] ∧ goContains p ['.'] then
      goEndsWith (path.getLastD []) (extAfterLastDot p)
    else if p = ['*', '*'] then matchStar ps path
    else if goMatch p (path.headD []) then matchPattern ps path.tail
    else false
termination_by pat path => (pat.length, path.length, 1)

/-- The loop for i := 0; i <= len(path); i++ of the `**` case, trying
matchPattern(pattern[1:], path[i:]) for every i. -/
def matchStar : List (List Char) → List (List Char) → Bool
  | ps, [] => matchPattern ps []
  | ps, s :: t => matchPattern ps (s :: t) || matchStar ps t
termination_by ps path => (ps.length + 1, path.length, 0)
end

/-- The exclusion loop of createLinuxArchive (and of the matchPattern-based
createMacOSArchive variant): the walked path is excluded when some
pattern, split on slashes, matches the normalized path segments. -/
def excByPatterns (patterns : List (List Char)) (pathSegments : List (List Char)) : Bool :=
  patterns.any fun pattern => matchPattern (goSplit pattern) pathSegments

/-- Go filepath.ToSlash on Windows: every backslash separator becomes a
forward slash. -/
def toSlash (s : List Char) : List Char := s.map fun c => if c = '\\' then '/' else c

/-- windows.go isExcluded: after slash normalization a path is excluded
when it starts with a pattern, contains "/" + pattern, or matches a
pattern as a filepath.Match wildcard. -/
def isExcluded (path : List Char) (excludePatterns : List (List Char)) : Bool :=
  let normalizedPath := toSlash path
  excludePatterns.any fun pattern =>
    let normalizedPattern := toSlash pattern
    goStartsWith normalizedPath normalizedPattern ||
      goContains normalizedPath ('/' :: normalizedPattern) ||
      goMatch normalizedPattern normalizedPath

/-- strings.Join(segments, "/"): rebuilds the normalized path string from
its slash-separated segments. -/
def joinSlash : List (List Char) → List Char
  | [] => []
  | [s] => s
  | s :: rest => s ++ '/' :: joinSlash rest

/-- The inline pattern check of createMacOSArchive: a pattern containing
`**/` excludes any path one of whose segments equals the trimmed
directory name; any other pattern goes through filepath.Match against
the whole normalized path (a malformed pattern is logged and skipped,
i.e. treated as non-matching). -/
def macPatternMatch (pattern : List Char) (pathSegments : List (List Char)) : Bool :=
  if goContains pattern ('*' :: '*' :: '/' :: []) then
    let dirName := goTrimTrailing
      (goTrimLeading pattern ('.' :: '/' :: '*' :: '*' :: '/' :: [])) ['/']
    pathSegments.any fun segment => segment = dirName
  else goMatch pattern (joinSlash pathSegments)

/-- The whole exclusion loop of createMacOSArchive over its pattern list. -/
def macExcluded (patterns : List (List Char)) (pathSegments : List (List Char)) : Bool :=
  patterns.any fun pattern => macPatternMatch pattern pathSegments

/-- A filesystem node under the backup source root: a regular file
(readable records whether os.Open and the io.Copy of its content
succeed) or a directory with children. -/
inductive FSNode where
  | file (name : List Char) (readable : Bool)
  | dir (name : List Char) (children : List FSNode)

def FSNode.name : FSNode → List Char
  | .file nm _ => nm
  | .dir nm _ => nm

/-- One entry of the produced archive stream: the tar header written for
relPath, and whether file content was written after it. -/
structure TarEntry where
  relPath : List (List Char)
  isDir : Bool
  contentWritten : Bool
deriving DecidableEq

mutual
/-- The archive entries written by the filepath.Walk callback of
createMacOSArchive / createLinuxArchive below one node.  The callback
receives the node's path; when the exclusion matcher fires it returns
filepath.SkipDir for a directory (the subtree is never walked) and nil
for a file, writing nothing; otherwise it writes the tar header, and
for a regular file the content follows exactly when open and copy
succeed — on failure the callback logs and returns nil, the header
having been written once already.  exc receives the normalized path
segments "." :: relative segments, the split of "./" + relPath. -/
def walkNode (exc : List (List Char) → Bool) (rel : List (List Char)) :
    FSNode → List TarEntry
  | .file nm r =>
    if exc (['.'] :: (rel ++ [nm])) then []
    else [⟨rel ++ [nm], false, r⟩]
  | .dir nm cs =>
    if exc (['.'] :: (rel ++ [nm])) then []
    else ⟨rel ++ [nm], true, false⟩ :: walkForest exc (rel ++ [nm]) cs

/-- walkNode over a list of sibling nodes, in directory order. -/
def walkForest (exc : List (List Char) → Bool) (rel : List (List Char)) :
    List FSNode → List TarEntry
  | [] => []
  | c :: cs => walkNode exc rel c ++ walkForest exc rel cs
end

mutual
/-- The relative paths at which the filepath.Walk callback runs below one
node: the node itself always (the callback decides exclusion there), and
its subtree only when the node is not excluded. -/
def visitNode (exc : List (List Char) → Bool) (rel : List (List Char)) :
    FSNode → List (List (List Char))
  | .file nm _ => [rel ++ [nm]]
  | .dir nm cs =>
    if exc (['.'] :: (rel ++ [nm])) then [rel ++ [nm]]
    else (rel ++ [nm]) :: visitForest exc (rel ++ [nm]) cs

def visitForest (exc : List (List Char) → Bool) (rel : List (List Char)) :
    List FSNode → List (List (List Char))
  | [] => []
  | c :: cs => visitNode exc rel c ++ visitForest exc rel cs
end

mutual
/-- All relative paths of the tree below one node, in pre-order. -/
def pathsNode (rel : List (List Char)) : FSNode → List (List (List Char))
  | .file nm _ => [rel ++ [nm]]
  | .dir nm cs => (rel ++ [nm]) :: pathsForest (rel ++ [nm]) cs

def pathsForest (rel : List (List Char)) : List FSNode → List (List (List Char))
  | [] => []
  | c :: cs => pathsNode rel c ++ pathsForest rel cs
end


/-- Segments free of the metacharacters of filepath.Match behave as
literals (a closing bracket or a dash outside a class is already
literal in the source algorithm). -/
def noSpecial (s : List Char) : Prop :=
  ∀ c ∈ s, c ≠ '*' ∧ c ≠ '?' ∧ c ≠ '[' ∧ c ≠ '\\'

instance (s : List Char) : Decidable (noSpecial s) := by
  unfold noSpecial
  infer_instance

theorem noSpecial_tail {c : Char} {p : List Char} (h : noSpecial (c :: p)) :
    noSpecial p := fun d hd => h d (by simp [hd])

theorem chunkSplit_lit {l : List Char} (h : noSpecial l) :
    chunkSplit false l = (l, []) := by
  induction l with
  | nil => exact chunkSplit_nil false
  | cons c p ih =>
    obtain ⟨h1, h2, h3, h4⟩ := h c (by simp)
    by_cases hr : c = ']'
    · subst hr
      rw [chunkSplit_rbr, ih (noSpecial_tail h)]
    · have h5 : ¬(c = '*' ∧ false = false) := fun hx => h1 hx.1
      rw [chunkSplit_other h4 h3 hr h5, ih (noSpecial_tail h)]

theorem matchChunk_lit_failed {l : List Char} (h : noSpecial l) (s : List Char) :
    matchChunk l s true = some none := by
  induction l generalizing s with
  | nil =>
    rw [matchChunk.eq_def]
    simp
  | cons c ch ih =>
    obtain ⟨h1, h2, h3, h4⟩ := h c (by simp)
    rw [matchChunk.eq_def]
    simp only [if_neg h3, if_neg h2, if_neg h4, Bool.true_or]
    exact ih (noSpecial_tail h) s

theorem matchChunk_lit {l : List Char} (h : noSpecial l) (s : List Char) :
    matchChunk l s false =
      if l <+: s then some (some (s.drop l.length)) else some none := by
  induction l generalizing s with
  | nil =>
    rw [matchChunk.eq_def]
    simp
  | cons c ch ih =>
    obtain ⟨h1, h2, h3, h4⟩ := h c (by simp)
    cases s with
    | nil =>
      rw [matchChunk.eq_def]
      simp only [if_neg h3, if_neg h2, if_neg h4, List.isEmpty_nil, Bool.false_or]
      simp [matchChunk_lit_failed (noSpecial_tail h)]
    | cons a s2 =>
      rw [matchChunk.eq_def]
      simp only [if_neg h3, if_neg h2, if_neg h4, List.isEmpty_cons, Bool.false_or]
      by_cases hca : c = a
      · subst hca
        simp [ih (noSpecial_tail h), List.cons_prefix_cons]
      · simp [hca, matchChunk_lit_failed (noSpecial_tail h), List.cons_prefix_cons]

theorem goMatch_lit {l : List Char} (h : noSpecial l) (s : List Char) :
    goMatch l s = decide (s = l) := by
  cases l with
  | nil =>
    rw [goMatch.eq_def]
    simp only [List.isEmpty_nil, dite_true]
    cases s <;> simp
  | cons c pp =>
    obtain ⟨h1, hq1, hq2, hq3⟩ := h c (by simp)
    rw [goMatch.eq_def]
    have hdw : (c :: pp).dropWhile (fun x => x = '*') = c :: pp := by
      simp [List.dropWhile_cons, h1]
    have hstar : ((c :: pp).head? == some '*') = false := by
      simp [h1]
    simp only [List.isEmpty_cons, hdw, hstar, chunkSplit_lit h, Bool.false_eq_true,
      dite_false, false_and, if_false, matchChunk_lit h s]
    by_cases hp : (c :: pp) <+: s
    · rw [if_pos hp]
      obtain ⟨t, rfl⟩ := hp
      rw [List.drop_left]
      by_cases ht : t = []
      · subst ht
        simp [goMatch.eq_def]
      · have hne : (c :: pp) ++ t ≠ c :: pp := by
          intro he
          have := congrArg List.length he
          simp at this
          exact ht this
        simp [ht, hne]
    · rw [if_neg hp]
      have hne : s ≠ c :: pp := by
        intro he
        exact hp (he ▸ List.prefix_refl _)
      simp [hne]

theorem matchPattern_nil_pat (path : List (List Char)) :
    matchPattern [] path = path.isEmpty := by
  rw [matchPattern.eq_def]

theorem matchPattern_nil_path (p : List Char) (ps : List (List Char)) :
    matchPattern (p :: ps) [] = false := by
  rw [matchPattern.eq_def]
  simp

theorem matchStar_nil (ps : List (List Char)) :
    matchStar ps [] = matchPattern ps [] := by
  rw [matchStar.eq_def]

theorem matchStar_cons (ps : List (List Char)) (s : List Char) (t : List (List Char)) :
    matchStar ps (s :: t) = (matchPattern ps (s :: t) || matchStar ps t) := by
  rw [matchStar.eq_def]

theorem goStartsWith_star_lit {nm : List Char} (h : noSpecial nm) :
    goStartsWith nm ['*'] = false := by
  cases nm with
  | nil => rfl
  | cons c p =>
    obtain ⟨h1, -, -, -⟩ := h c (by simp)
    have : ('*' == c) = false := by
      simp
      intro hx
      exact absurd hx.symm h1
    simp [goStartsWith, List.isPrefixOf, this]

theorem matchPattern_lit_cons_cons {nm : List Char} (h : noSpecial nm)
    (ps : List (List Char)) (a : List Char) (t : List (List Char)) :
    matchPattern (nm :: ps) (a :: t) = if a = nm then matchPattern ps t else false := by
  rw [matchPattern.eq_def]
  have hds : nm ≠ ['*', '*'] := by
    intro hx
    obtain ⟨h1, -, -, -⟩ := h '*' (by simp [hx])
    exact h1 rfl
  simp only [List.isEmpty_cons, Bool.false_eq_true, if_false,
    goStartsWith_star_lit h, false_and, List.headD_cons, goMatch_lit h a,
    List.tail_cons, if_neg hds, decide_eq_true_eq]

theorem matchStar_lit {nm : List Char} (h : noSpecial nm) (segs : List (List Char)) :
    matchStar [nm] segs = decide (segs.getLast? = some nm) := by
  induction segs with
  | nil =>
    rw [matchStar_nil, matchPattern_nil_path]
    simp
  | cons a t ih =>
    rw [matchStar_cons, matchPattern_lit_cons_cons h, ih]
    cases t with
    | nil =>
      by_cases ha : a = nm
      · simp [ha, matchPattern_nil_pat]
      · simp [ha]
    | cons u v =>
      by_cases ha : a = nm
      · simp [ha, matchPattern_nil_pat, List.getLast?_cons_cons]
      · simp [ha, List.getLast?_cons_cons]

theorem matchPattern_dss {nm : List Char} (h : noSpecial nm) (segs : List (List Char)) :
    matchPattern [['.'], ['*', '*'], nm] (['.'] :: segs) =
      decide (segs.getLast? = some nm) := by
  rw [matchPattern_lit_cons_cons (by decide : noSpecial ['.'])]
  rw [if_pos rfl]
  cases segs with
  | nil =>
    rw [matchPattern_nil_path]
    simp
  | cons a t =>
    rw [matchPattern.eq_def]
    have hc : goContains ['*', '*'] ['.'] = false := by decide
    simp only [List.isEmpty_cons, Bool.false_eq_true, if_false, hc,
      Bool.false_eq_true, and_false, if_false, if_pos rfl]
    exact matchStar_lit h (a :: t)

theorem goSplit_no_slash {s : List Char} (h : ('/' : Char) ∉ s) : goSplit s = [s] := by
  induction s with
  | nil => rfl
  | cons c p ih =>
    have hc : c ≠ '/' := by
      intro x
      exact h (by simp [x])
    have hp : ('/' : Char) ∉ p := fun x => h (by simp [x])
    simp only [goSplit, if_neg hc, ih hp]

theorem goSplit_dss {nm : List Char} (h : ('/' : Char) ∉ nm) :
    goSplit ('.' :: '/' :: '*' :: '*' :: '/' :: nm) = [['.'], ['*', '*'], nm] := by
  simp only [goSplit, goSplit_no_slash h,
    if_neg (by decide : ¬ ('.' : Char) = '/'), if_pos (rfl : ('/' : Char) = '/'),
    if_neg (by decide : ¬ ('*' : Char) = '/')]
  simp

theorem takeWhile_append_all {α : Type} (p : α → Bool) {l1 : List α} (l2 : List α)
    (h : ∀ x ∈ l1, p x = true) :
    (l1 ++ l2).takeWhile p = l1 ++ l2.takeWhile p := by
  induction l1 with
  | nil => simp
  | cons a t ih =>
    have ha := h a (by simp)
    simp [List.takeWhile_cons, ha, ih (fun x hx => h x (by simp [hx]))]

/-- Slicing the extension off an extension pattern segment: for a segment
with a single dot, pattern[LastIndex(pattern, "."):] is "." + ext. -/
theorem extAfterLastDot_eq (c : Char) {ext : List Char} (h : ('.' : Char) ∉ ext) :
    extAfterLastDot (c :: '.' :: ext) = '.' :: ext := by
  unfold extAfterLastDot
  have h1 : (c :: '.' :: ext).reverse = ext.reverse ++ ['.', c] := by simp
  have h2 : ∀ x ∈ ext.reverse, (fun d => decide ¬(d = '.')) x = true := by
    intro x hx
    have hxx : x ≠ '.' := by
      intro he
      subst he
      exact h (List.mem_reverse.mp hx)
    simp [hxx]
  rw [h1, takeWhile_append_all _ _ h2]
  have h3 : (['.', c] : List Char).takeWhile (fun d => decide ¬(d = '.')) = [] := by
    simp [List.takeWhile_cons]
  rw [h3]
  simp

/-- The extension branch of matchPattern: a pattern segment "*.ext" with a
dot-free ext matches exactly when the final path segment has the suffix
".ext", whatever the rest of the pattern or the depth of the path. -/
theorem matchPattern_ext {ext : List Char} (h : ('.' : Char) ∉ ext)
    (ps : List (List Char)) (a : List Char) (t : List (List Char)) :
    matchPattern (('*' :: '.' :: ext) :: ps) (a :: t) =
      goEndsWith ((a :: t).getLastD []) ('.' :: ext) := by
  rw [matchPattern.eq_def]
  have h1 : goStartsWith ('*' :: '.' :: ext) ['*'] = true := by
    simp [goStartsWith, List.isPrefixOf]
  have h2 : goContains ('*' :: '.' :: ext) ['.'] = true :=
    decide_eq_true ⟨['*'], ext, rfl⟩
  simp only [List.isEmpty_cons, Bool.false_eq_true, if_false, h1, h2, and_self,
    if_true, extAfterLastDot_eq '*' h]

/-- The single-pattern exclusion check for a "./**/name" pattern with a
literal name: the normalized path "." :: segments is excluded exactly
when the final segment equals name. -/
theorem excByPatterns_dss {nm : List Char} (hs : noSpecial nm)
    (hsl : ('/' : Char) ∉ nm) (p : List (List Char)) :
    excByPatterns [('.' :: '/' :: '*' :: '*' :: '/' :: nm)] (['.'] :: p) =
      decide (p.getLast? = some nm) := by
  unfold excByPatterns
  rw [List.any_cons, List.any_nil, goSplit_dss hsl, matchPattern_dss hs]
  simp

/-- The relative paths of the entries written below one node. -/
def entryPathsNode (exc : List (List Char) → Bool) (rel : List (List Char))
    (n : FSNode) : List (List (List Char)) :=
  (walkNode exc rel n).map TarEntry.relPath

/-- The relative paths of the entries written below a sibling list. -/
def entryPathsForest (exc : List (List Char) → Bool) (rel : List (List Char))
    (ns : List FSNode) : List (List (List Char)) :=
  (walkForest exc rel ns).map TarEntry.relPath

mutual
theorem entryPathsNode_eq (exc : List (List Char) → Bool) (rel : List (List Char))
    (n : FSNode) :
    entryPathsNode exc rel n =
      (visitNode exc rel n).filter (fun p => !exc (['.'] :: p)) := by
  cases n with
  | file nm r =>
    by_cases he : exc (['.'] :: (rel ++ [nm])) = true
    · simp [entryPathsNode, walkNode, visitNode, he]
    · simp [entryPathsNode, walkNode, visitNode, he]
  | dir nm cs =>
    by_cases he : exc (['.'] :: (rel ++ [nm])) = true
    · simp [entryPathsNode, walkNode, visitNode, he]
    · have hf := entryPathsForest_eq exc (rel ++ [nm]) cs
      simp only [entryPathsForest] at hf
      simp [entryPathsNode, walkNode, visitNode, he, hf]

theorem entryPathsForest_eq (exc : List (List Char) → Bool) (rel : List (List Char))
    (ns : List FSNode) :
    entryPathsForest exc rel ns =
      (visitForest exc rel ns).filter (fun p => !exc (['.'] :: p)) := by
  cases ns with
  | nil => simp [entryPathsForest, walkForest, visitForest]
  | cons c cs =>
    have h1 := entryPathsNode_eq exc rel c
    have h2 := entryPathsForest_eq exc rel cs
    simp only [entryPathsForest, walkForest, visitForest, List.map_append,
      List.filter_append]
    simp only [entryPathsNode] at h1
    simp only [entryPathsForest] at h2
    rw [h1, h2]
end

mutual
theorem visitNode_sublist (exc : List (List Char) → Bool) (rel : List (List Char))
    (n : FSNode) : List.Sublist (visitNode exc rel n) (pathsNode rel n) := by
  cases n with
  | file nm r => simp [visitNode, pathsNode]
  | dir nm cs =>
    by_cases he : exc (['.'] :: (rel ++ [nm])) = true
    · simp only [visitNode, pathsNode, if_pos he]
      exact (List.nil_sublist _).cons₂ _
    · simp only [visitNode, pathsNode, if_neg he]
      exact (visitForest_sublist exc (rel ++ [nm]) cs).cons₂ _

theorem visitForest_sublist (exc : List (List Char) → Bool) (rel : List (List Char))
    (ns : List FSNode) : List.Sublist (visitForest exc rel ns) (pathsForest rel ns) := by
  cases ns with
  | nil => simp [visitForest, pathsForest]
  | cons c cs =>
    simp only [visitForest, pathsForest]
    exact (visitNode_sublist exc rel c).append (visitForest_sublist exc rel cs)
end

mutual
theorem pathsNode_start (rel : List (List Char)) (n : FSNode) :
    ∀ q ∈ pathsNode rel n, rel ++ [n.name] <+: q := by
  cases n with
  | file nm r =>
    intro q hq
    simp [pathsNode] at hq
    simp [hq, FSNode.name]
  | dir nm cs =>
    intro q hq
    simp only [pathsNode, List.mem_cons] at hq
    rcases hq with rfl | hq
    · simp [FSNode.name]
    · obtain ⟨c, -, hc⟩ := pathsForest_start (rel ++ [nm]) cs q hq
      simp only [FSNode.name]
      calc rel ++ [nm] <+: (rel ++ [nm]) ++ [c.name] := List.prefix_append _ _
        _ <+: q := hc

theorem pathsForest_start (rel : List (List Char)) (ns : List FSNode) :
    ∀ q ∈ pathsForest rel ns, ∃ c ∈ ns, rel ++ [c.name] <+: q := by
  cases ns with
  | nil => simp [pathsForest]
  | cons c cs =>
    intro q hq
    simp only [pathsForest, List.mem_append] at hq
    rcases hq with hq | hq
    · exact ⟨c, by simp, pathsNode_start rel c q hq⟩
    · obtain ⟨d, hd, hdq⟩ := pathsForest_start rel cs q hq
      exact ⟨d, by simp [hd], hdq⟩
end

theorem pathsForest_start_len {rel : List (List Char)} {ns : List FSNode}
    {q : List (List Char)} (hq : q ∈ pathsForest rel ns) :
    rel <+: q ∧ rel.length < q.length := by
  obtain ⟨c, -, hc⟩ := pathsForest_start rel ns q hq
  constructor
  · exact (List.prefix_append _ _).trans hc
  · have := hc.length_le
    simp at this
    omega

theorem prefix_antisym {α : Type} {p q : List α} (h1 : p <+: q) (h2 : q <+: p) :
    p = q :=
  h1.eq_of_length (le_antisymm h1.length_le h2.length_le)

theorem prefix_snoc_squeeze {rel p : List (List Char)} {x : List Char}
    (h1 : rel <+: p) (h2 : p <+: rel ++ [x]) (hne : p ≠ rel) : p = rel ++ [x] := by
  have l1 := h1.length_le
  have l2 := h2.length_le
  have l3 : rel.length ≠ p.length := by
    intro hl
    exact hne (h1.eq_of_length hl).symm
  refine h2.eq_of_length ?_
  simp only [List.length_append, List.length_cons, List.length_nil] at l2 ⊢
  omega

mutual
theorem mem_visitNode_iff (exc : List (List Char) → Bool) (rel : List (List Char))
    (n : FSNode) (q : List (List Char)) :
    q ∈ visitNode exc rel n ↔
      q ∈ pathsNode rel n ∧
        ∀ p, rel ++ [n.name] <+: p → p <+: q → p ≠ q → exc (['.'] :: p) = false := by
  cases n with
  | file nm r =>
    simp only [visitNode, pathsNode, FSNode.name, List.mem_singleton]
    constructor
    · rintro rfl
      refine ⟨rfl, ?_⟩
      intro p hp1 hp2 hne
      exact (hne (prefix_antisym hp2 hp1)).elim
    · rintro ⟨rfl, -⟩
      rfl
  | dir nm cs =>
    by_cases he : exc (['.'] :: (rel ++ [nm])) = true
    · simp only [visitNode, pathsNode, FSNode.name, if_pos he, List.mem_singleton,
        List.mem_cons]
      constructor
      · intro hv
        rcases hv with rfl | hv
        · refine ⟨Or.inl rfl, ?_⟩
          intro p hp1 hp2 hne
          exact (hne (prefix_antisym hp2 hp1)).elim
        · simp at hv
      · rintro ⟨hq, hcond⟩
        rcases hq with rfl | hq
        · exact Or.inl rfl
        · exfalso
          obtain ⟨hpre, hlen⟩ := pathsForest_start_len hq
          have hne : rel ++ [nm] ≠ q := by
            intro hr
            rw [hr] at hlen
            omega
          have hfalse := hcond (rel ++ [nm]) (List.prefix_refl _) hpre hne
          rw [hfalse] at he
          simp at he
    · simp only [visitNode, pathsNode, FSNode.name, if_neg he, List.mem_cons]
      by_cases hq : q = rel ++ [nm]
      · subst hq
        constructor
        · intro _
          refine ⟨Or.inl rfl, ?_⟩
          intro p hp1 hp2 hne
          exact (hne (prefix_antisym hp2 hp1)).elim
        · intro _
          exact Or.inl rfl
      · have hiff := mem_visitForest_iff exc (rel ++ [nm]) cs q
        constructor
        · intro hv
          rcases hv with hv | hv
          · exact (hq hv).elim
          · obtain ⟨hmem, hcond⟩ := hiff.mp hv
            refine ⟨Or.inr hmem, ?_⟩
            intro p hp1 hp2 hp3
            by_cases hpr : p = rel ++ [nm]
            · subst hpr
              exact Bool.eq_false_iff.mpr he
            · exact hcond p hp1 hpr hp2 hp3
        · rintro ⟨hmem, hcond⟩
          rcases hmem with hmem | hmem
          · exact (hq hmem).elim
          · refine Or.inr (hiff.mpr ⟨hmem, ?_⟩)
            intro p hp1 hp2 hp3 hp4
            exact hcond p hp1 hp3 hp4

theorem mem_visitForest_iff (exc : List (List Char) → Bool) (rel : List (List Char))
    (ns : List FSNode) (q : List (List Char)) :
    q ∈ visitForest exc rel ns ↔
      q ∈ pathsForest rel ns ∧
        ∀ p, rel <+: p → p ≠ rel → p <+: q → p ≠ q → exc (['.'] :: p) = false := by
  cases ns with
  | nil => simp [visitForest, pathsForest]
  | cons c cs =>
    have hnode := mem_visitNode_iff exc rel c q
    have hrest := mem_visitForest_iff exc rel cs q
    simp only [visitForest, pathsForest, List.mem_append]
    constructor
    · intro hv
      rcases hv with hv | hv
      · obtain ⟨hq, hcond⟩ := hnode.mp hv
        refine ⟨Or.inl hq, ?_⟩
        intro p hp1 hp2 hp3 hp4
        have hqs : rel ++ [c.name] <+: q := pathsNode_start rel c q hq
        rcases List.prefix_or_prefix_of_prefix hp3 hqs with hcase | hcase
        · have hpe : p = rel ++ [c.name] := prefix_snoc_squeeze hp1 hcase hp2
          subst hpe
          exact hcond _ (List.prefix_refl _) hp3 hp4
        · exact hcond p hcase hp3 hp4
      · obtain ⟨hq, hcond⟩ := hrest.mp hv
        exact ⟨Or.inr hq, hcond⟩
    · rintro ⟨hq, hcond⟩
      rcases hq with hq | hq
      · refine Or.inl (hnode.mpr ⟨hq, ?_⟩)
        intro p hp1 hp2 hp3
        have h0 : rel <+: p := (List.prefix_append rel [c.name]).trans hp1
        have h5 : p ≠ rel := by
          intro hr
          subst hr
          have := hp1.length_le
          simp at this
        exact hcond p h0 h5 hp2 hp3
      · exact Or.inr (hrest.mpr ⟨hq, hcond⟩)
end

theorem count_eq_one_of_nodup_mem {α : Type} [BEq α] [LawfulBEq α] {l : List α} {q : α}
    (h : l.Nodup) (hm : q ∈ l) : l.count q = 1 := by
  induction l with
  | nil => simp at hm
  | cons a t ih =>
    rcases List.mem_cons.mp hm with rfl | hm2
    · rw [List.count_cons_self]
      have hnt : q ∉ t := (List.nodup_cons.mp h).1
      rw [List.count_eq_zero.mpr hnt]
    · rw [List.count_cons_of_ne, ih (List.nodup_cons.mp h).2 hm2]
      intro he
      subst he
      exact (List.nodup_cons.mp h).1 hm2

/-- Claim C1: in an archive-creation run (the walker of createMacOSArchive
and createLinuxArchive, consulting exclusion matcher exc), every
filesystem node is either excluded — and, for a directory, its entire
subtree is never visited — or written to the archive stream exactly
once; no node is written twice and no non-excluded visited node is
dropped (a file whose open or read fails still gets its single header
entry, only the content flag differs).  cs are the children of the
backup root; the hypothesis asks the tree's paths to be distinct, which
sibling names on a real filesystem guarantee. -/
theorem walker_each_node_excluded_or_written_once
    (exc : List (List Char) → Bool) (cs : List FSNode)
    (hnd : (pathsForest [] cs).Nodup) (q : List (List Char))
    (hq : q ∈ pathsForest [] cs) :
    ((∃ p ∈ q.inits, p ≠ [] ∧ p ≠ q ∧ exc (['.'] :: p) = true) →
        q ∉ visitForest exc [] cs ∧ q ∉ entryPathsForest exc [] cs) ∧
    ((∀ p ∈ q.inits, p ≠ [] → p ≠ q → exc (['.'] :: p) = false) →
      exc (['.'] :: q) = true →
        q ∈ visitForest exc [] cs ∧ q ∉ entryPathsForest exc [] cs) ∧
    ((∀ p ∈ q.inits, p ≠ [] → p ≠ q → exc (['.'] :: p) = false) →
      exc (['.'] :: q) = false →
        (entryPathsForest exc [] cs).count q = 1) := by
  have hfilter := entryPathsForest_eq exc [] cs
  have hiff := mem_visitForest_iff exc [] cs q
  have hentry_visit : ∀ r, r ∈ entryPathsForest exc [] cs →
      r ∈ visitForest exc [] cs ∧ exc (['.'] :: r) = false := by
    intro r hr
    rw [hfilter] at hr
    have := List.mem_filter.mp hr
    refine ⟨this.1, ?_⟩
    simpa using this.2
  refine ⟨?_, ?_, ?_⟩
  · rintro ⟨p, hpin, hpne, hpneq, hptrue⟩
    have hnv : q ∉ visitForest exc [] cs := by
      intro hv
      have hcond := (hiff.mp hv).2
      have := hcond p List.nil_prefix hpne ((List.mem_inits _ _).mp hpin) hpneq
      rw [this] at hptrue
      simp at hptrue
    refine ⟨hnv, ?_⟩
    intro he
    exact hnv (hentry_visit q he).1
  · intro hcond hqexc
    have hv : q ∈ visitForest exc [] cs := by
      refine hiff.mpr ⟨hq, ?_⟩
      intro p hp0 hpne hpq hpneq
      exact hcond p ((List.mem_inits _ _).mpr hpq) hpne hpneq
    refine ⟨hv, ?_⟩
    intro he
    have := (hentry_visit q he).2
    rw [this] at hqexc
    simp at hqexc
  · intro hcond hqexc
    have hv : q ∈ visitForest exc [] cs := by
      refine hiff.mpr ⟨hq, ?_⟩
      intro p hp0 hpne hpq hpneq
      exact hcond p ((List.mem_inits _ _).mpr hpq) hpne hpneq
    have hmem : q ∈ entryPathsForest exc [] cs := by
      rw [hfilter]
      refine List.mem_filter.mpr ⟨hv, ?_⟩
      simp [hqexc]
    have hsub : List.Sublist (entryPathsForest exc [] cs) (pathsForest [] cs) := by
      rw [hfilter]
      exact (List.filter_sublist _).trans (visitForest_sublist exc [] cs)
    have hnd2 : (entryPathsForest exc [] cs).Nodup := hnd.sublist hsub
    exact count_eq_one_of_nodup_mem hnd2 hmem

/-- Claim C2: with an exclusion pattern "./**/name" (a literal name, as in
"./**/node_modules"), every node whose relative path contains name as a
segment is absent from the archive, and the walker never descends below
an excluded directory: no visited path lies strictly below a segment
equal to name.  In particular a/node_modules/x.txt is never archived
and nothing inside a/node_modules is ever read. -/
theorem doubleStar_pattern_excludes_and_prunes
    (nm : List Char) (hs : noSpecial nm) (hsl : ('/' : Char) ∉ nm)
    (cs : List FSNode) :
    (∀ q ∈ pathsForest [] cs, nm ∈ q →
        q ∉ entryPathsForest
          (excByPatterns [('.' :: '/' :: '*' :: '*' :: '/' :: nm)]) [] cs) ∧
    (∀ q ∈ visitForest
          (excByPatterns [('.' :: '/' :: '*' :: '*' :: '/' :: nm)]) [] cs,
        nm ∉ q.dropLast) := by
  have hexc : ∀ p : List (List Char),
      excByPatterns [('.' :: '/' :: '*' :: '*' :: '/' :: nm)] (['.'] :: p) =
        decide (p.getLast? = some nm) := fun p => excByPatterns_dss hs hsl p
  have hprune : ∀ q ∈ visitForest
      (excByPatterns [('.' :: '/' :: '*' :: '*' :: '/' :: nm)]) [] cs,
      nm ∉ q.dropLast := by
    intro q hv hmem
    have hcond := (mem_visitForest_iff _ [] cs q).mp hv |>.2
    obtain ⟨i, hi, hq⟩ := List.mem_iff_getElem.mp hmem
    have hlen : q.dropLast.length = q.length - 1 := List.length_dropLast q
    have hqi : q.take (i + 1) <+: q := List.take_prefix _ _
    have hne : q.take (i + 1) ≠ [] := by
      have : (q.take (i + 1)).length = i + 1 := by
        rw [List.length_take]
        omega
      intro hx
      rw [hx] at this
      simp at this
    have hneq : q.take (i + 1) ≠ q := by
      intro hx
      have := congrArg List.length hx
      rw [List.length_take] at this
      omega
    have hlast : (q.take (i + 1)).getLast? = some nm := by
      have hts : q.take (i + 1) = q.take i ++ [q[i]] := by
        rw [List.take_succ]
        congr
        rw [List.getElem?_eq_getElem (by omega)]
        rfl
      rw [hts, List.getLast?_concat]
      rw [List.getElem_dropLast] at hq
      rw [hq]
    have := hcond (q.take (i + 1)) List.nil_prefix hne hqi hneq
    rw [hexc] at this
    rw [hlast] at this
    simp at this
  refine ⟨?_, hprune⟩
  intro q hq hmem hentry
  have hfilter := entryPathsForest_eq
    (excByPatterns [('.' :: '/' :: '*' :: '*' :: '/' :: nm)]) [] cs
  rw [hfilter] at hentry
  obtain ⟨hvis, hflt⟩ := List.mem_filter.mp hentry
  have hqne : q ≠ [] := by
    obtain ⟨-, hl⟩ := pathsForest_start_len hq
    intro hx
    rw [hx] at hl
    simp at hl
  have hsplit : q.dropLast ++ [q.getLast hqne] = q := List.dropLast_append_getLast hqne
  rw [← hsplit] at hmem
  rcases List.mem_append.mp hmem with hmem | hmem
  · exact hprune q hvis hmem
  · have hlast : q.getLast hqne = nm := by
      simp at hmem
      exact hmem.symm
    have : excByPatterns [('.' :: '/' :: '*' :: '*' :: '/' :: nm)] (['.'] :: q) = true := by
      rw [hexc, List.getLast?_eq_getLast q hqne, hlast]
      simp
    rw [this] at hflt
    simp at hflt

/-- Claim C3: an extension pattern "*.ext" (ext free of further dots)
matches a path exactly when the final path segment ends with the suffix
".ext", independent of directory depth; in particular *.sock excludes
foo.sock but not foo.sock.bak. -/
theorem extension_pattern_final_segment_suffix
    (ext : List Char) (h : ('.' : Char) ∉ ext) (path : List (List Char))
    (hne : path ≠ []) :
    matchPattern [('*' :: '.' :: ext)] path =
      goEndsWith (path.getLast hne) ('.' :: ext) := by
  obtain ⟨a, t, rfl⟩ : ∃ a t, path = a :: t := by
    cases path with
    | nil => exact absurd rfl hne
    | cons a t => exact ⟨a, t, rfl⟩
  rw [matchPattern_ext h]
  congr 1

/-- Claim C3 exercised on the spec's example: *.sock matches a path ending
in foo.sock at depth two, and foo.sock.bak does not end with ".sock". -/
theorem extension_pattern_final_segment_suffix_witness :
    matchPattern [('*' :: '.' :: ("sock").toList)]
      [("a").toList, ("foo.sock").toList] = true ∧
    matchPattern [('*' :: '.' :: ("sock").toList)]
      [("a").toList, ("foo.sock.bak").toList] = false := by
  constructor
  · rw [extension_pattern_final_segment_suffix ("sock").toList (by decide) _ (by simp)]
    decide
  · rw [extension_pattern_final_segment_suffix ("sock").toList (by decide) _ (by simp)]
    decide

/-- Claim C4 fails on the segment matcher: the normalized relative path
"./.Trash/foo" starts with the prefix pattern "./.Trash" (a pattern of
the platform exclude lists), yet the pattern does not match the path —
matchPattern consumes pattern and path segment by segment and a spent
pattern matches only a spent path, so the prefix test alone does not
exclude the paths beneath the named directory. -/
theorem prefix_claim_counterexample :
    goStartsWith ("./.Trash/foo").toList ("./.Trash").toList = true ∧
    excByPatterns [("./.Trash").toList] (goSplit ("./.Trash/foo").toList) = false := by
  constructor
  · decide
  · unfold excByPatterns
    rw [List.any_cons, List.any_nil]
    rw [show goSplit ("./.Trash").toList = [(".").toList, (".Trash").toList] from
      by decide]
    rw [show goSplit ("./.Trash/foo").toList =
        [(".").toList, (".Trash").toList, ("foo").toList] from by decide]
    rw [matchPattern_lit_cons_cons (by decide), if_pos rfl]
    rw [matchPattern_lit_cons_cons (by decide), if_pos rfl]
    rw [matchPattern_nil_pat]
    decide

/-- Claim C4 amended: the Windows isExcluded helper excludes any path that
starts with a pattern in the form both are written (neither side applies
a "./" adjustment), while the segment matcher of pattern.go matches a
prefix pattern only against the node whose whole segment list agrees
with it; the paths beneath an excluded directory are omitted from the
archive by the walker's subtree pruning, not by the prefix test. -/
theorem prefix_pattern_amended :
    (∀ (path pat : List Char) (pats : List (List Char)), pat ∈ pats →
        goStartsWith (toSlash path) (toSlash pat) = true →
        isExcluded path pats = true) ∧
    (excByPatterns [("./.Trash").toList] (goSplit ("./.Trash").toList) = true ∧
      entryPathsForest (excByPatterns [("./.Trash").toList]) []
        [FSNode.dir (".Trash").toList [FSNode.file ("foo").toList true]] = []) := by
  have hexc : excByPatterns [("./.Trash").toList]
      (['.'] :: [(".Trash").toList]) = true := by
    unfold excByPatterns
    rw [List.any_cons, List.any_nil]
    rw [show goSplit ("./.Trash").toList = [(".").toList, (".Trash").toList] from
      by decide]
    rw [show ((['.'] : List Char) :: [(".Trash").toList]) =
        [(".").toList, (".Trash").toList] from by decide]
    rw [matchPattern_lit_cons_cons (by decide), if_pos rfl]
    rw [matchPattern_lit_cons_cons (by decide), if_pos rfl]
    rw [matchPattern_nil_pat]
    decide
  refine ⟨?_, ?_, ?_⟩
  · intro path pat pats hmem hpre
    unfold isExcluded
    refine List.any_eq_true.mpr ⟨pat, hmem, ?_⟩
    simp only []
    rw [hpre]
    simp
  · rw [show goSplit ("./.Trash").toList = [(".").toList, (".Trash").toList] from
      by decide]
    rw [show ([(".").toList, (".Trash").toList] : List (List Char)) =
        (['.'] :: [(".Trash").toList]) from by decide]
    exact hexc
  · simp only [entryPathsForest, walkForest, walkNode, List.nil_append, hexc]
    simp

/-- Claim C1 exercised on a concrete tree: with sibling c excluded, the
included file a/b has exactly one archive entry. -/
theorem walker_each_node_excluded_or_written_once_witness :
    (pathsForest [] [FSNode.dir ['a'] [FSNode.file ['b'] true,
        FSNode.dir ['c'] [FSNode.file ['d'] true]]]).Nodup ∧
    (entryPathsForest (fun np => decide (np = [['.'], ['a'], ['c']])) []
        [FSNode.dir ['a'] [FSNode.file ['b'] true,
          FSNode.dir ['c'] [FSNode.file ['d'] true]]]).count [['a'], ['b']] = 1 := by
  refine ⟨by decide, ?_⟩
  exact (walker_each_node_excluded_or_written_once
    (fun np => decide (np = [['.'], ['a'], ['c']]))
    [FSNode.dir ['a'] [FSNode.file ['b'] true,
      FSNode.dir ['c'] [FSNode.file ['d'] true]]]
    (by decide) [['a'], ['b']] (by decide)).2.2 (by decide) (by decide)

/-- Claim C2 exercised on the spec's example tree: a/node_modules/x.txt is
not among the entries produced under pattern "./**/node_modules". -/
theorem doubleStar_pattern_excludes_and_prunes_witness :
    [("a").toList, ("node_modules").toList, ("x.txt").toList] ∉
      entryPathsForest
        (excByPatterns [('.' :: '/' :: '*' :: '*' :: '/' :: ("node_modules").toList)])
        [] [FSNode.dir ("a").toList [FSNode.dir ("node_modules").toList
              [FSNode.file ("x.txt").toList true]]] :=
  (doubleStar_pattern_excludes_and_prunes ("node_modules").toList (by decide)
    (by decide)
    [FSNode.dir ("a").toList [FSNode.dir ("node_modules").toList
      [FSNode.file ("x.txt").toList true]]]).1
    [("a").toList, ("node_modules").toList, ("x.txt").toList] (by decide) (by decide)

/-- Claim C4 amended, exercised: a path starting with a pattern (as both
are written) is excluded by the Windows helper. -/
theorem prefix_pattern_amended_witness :
    isExcluded ("Library/Caches/x").toList [("Library").toList] = true :=
  prefix_pattern_amended.1 ("Library/Caches/x").toList ("Library").toList
    [("Library").toList] (by decide) (by decide)

/-- The command-line options of main.go that govern the phase after
backup.CreateBackup succeeded. -/
structure MainOpts where
  backupOnly : Bool
  skipUpload : Bool
  useSSH : Bool
  keepBackup : Bool
deriving DecidableEq

/-- Outcome of the RunE body after CreateBackup succeeded: whether an
upload ran, whether os.Remove was invoked on the local archive, and
whether RunE returns an error. -/
structure AfterBackup where
  uploadAttempted : Bool
  removeCalled : Bool
  returnsError : Bool
deriving DecidableEq

/-- main.go, RunE after backup.CreateBackup succeeds: backup-only mode
keeps the file; otherwise, unless the upload is skipped, the SSH or
rclone upload runs (uploadOk abstracts whichever uploader's result) and
a failure returns its error at once; os.Remove runs on the backup path
only after a successful upload and only when keep-backup is unset (a
failing remove is merely logged). -/
def runAfterBackup (o : MainOpts) (uploadOk : Bool) : AfterBackup :=
  if o.backupOnly then ⟨false, false, false⟩
  else if !o.skipUpload then
    if !uploadOk then ⟨true, false, true⟩
    else if !o.keepBackup then ⟨true, true, false⟩
    else ⟨true, false, false⟩
  else ⟨false, false, false⟩

/-- Claim C5: if the upload fails after a successful archive creation, the
local archive is never deleted and the failure is reported; deletion of
the local archive happens only after a successful upload, and only when
the caller did not request keeping it. -/
theorem upload_failure_preserves_archive (o : MainOpts) (uploadOk : Bool) :
    ((runAfterBackup o uploadOk).uploadAttempted = true → uploadOk = false →
      (runAfterBackup o uploadOk).removeCalled = false ∧
        (runAfterBackup o uploadOk).returnsError = true) ∧
    ((runAfterBackup o uploadOk).removeCalled = true →
      uploadOk = true ∧ o.keepBackup = false ∧
        (runAfterBackup o uploadOk).uploadAttempted = true) := by
  rcases o with ⟨bo, su, ssh, kb⟩
  cases bo <;> cases su <;> cases kb <;> cases uploadOk <;>
    simp [runAfterBackup]

/-- Claim C5 exercised: a plain run (no special flags) with a failed
upload keeps the archive and surfaces the error. -/
theorem upload_failure_preserves_archive_witness :
    (runAfterBackup ⟨false, false, false, false⟩ false).removeCalled = false ∧
    (runAfterBackup ⟨false, false, false, false⟩ false).returnsError = true :=
  (upload_failure_preserves_archive ⟨false, false, false, false⟩ false).1
    (by decide) rfl

/-- progressReader's counter state: transferred and total mirror the int64
fields (all sizes in this tool stay far below 2^63, so plain integers
model them faithfully). -/
structure PRState where
  transferred : Int
  total : Int
deriving DecidableEq

/-- One result of the wrapped reader's Read: the bytes placed into the
caller's buffer, the returned count n, and whether err == io.EOF. -/
structure ReadResult where
  data : List Nat
  n : Nat
  eof : Bool
deriving DecidableEq

/-- The clock-dependent inputs of one progressReader.Read call: whether
now.Sub(pr.lastReport) >= 5s held, and whether elapsed > 0 held. -/
structure ReadTiming where
  gapAtLeast5s : Bool
  elapsedPos : Bool
deriving DecidableEq

structure ReadOutcome where
  state : PRState
  out : ReadResult
  reportConditionHit : Bool
  divisionByTotal : Bool
deriving DecidableEq

/-- progressReader.Read (upload package): it forwards the underlying read
untouched, adds n to transferred, and enters the reporting branch when
the 5-second window passed, transferred equals total, or the source
reported EOF; inside that branch every reported figure — including
percentage := transferred / total — is computed whenever elapsed > 0.
The guard tests elapsed, not total. -/
def prRead (st : PRState) (r : ReadResult) (t : ReadTiming) : ReadOutcome :=
  let transferred := st.transferred + r.n
  let hit := t.gapAtLeast5s || (transferred == st.total) || r.eof
  ⟨⟨transferred, st.total⟩, r, hit, hit && t.elapsedPos⟩

/-- A sequence of Read calls through the progress reader, returning the
final counter state and the results handed back to the copier. -/
def prRun (st : PRState) : List (ReadResult × ReadTiming) → PRState × List ReadResult
  | [] => (st, [])
  | (r, t) :: rest =>
    let o := prRead st r t
    let res := prRun o.state rest
    (res.1, o.out :: res.2)

theorem prRun_transferred (st : PRState) (reads : List (ReadResult × ReadTiming)) :
    (prRun st reads).1.transferred =
      st.transferred + (reads.map fun rt => (rt.1.n : Int)).sum := by
  induction reads generalizing st with
  | nil => simp [prRun]
  | cons rt rest ih =>
    rcases rt with ⟨r, t⟩
    simp only [prRun, List.map_cons, List.sum_cons]
    rw [ih]
    simp [prRead]
    ring

/-- Claim C6: the progress reader is a pass-through decorator — every read
hands back the underlying bytes, count and error unchanged; the
accumulated transferred total never decreases across successive reads;
and the final total is the starting value plus the sum of all byte
counts, hence exactly the declared size when the source delivers its
declared length starting from zero. -/
theorem progress_reader_passthrough_monotone_total
    (st : PRState) (reads : List (ReadResult × ReadTiming)) :
    ((prRun st reads).2 = reads.map Prod.fst) ∧
    (∀ pre suf, reads = pre ++ suf →
      (prRun st pre).1.transferred ≤ (prRun st reads).1.transferred) ∧
    ((prRun st reads).1.transferred =
      st.transferred + (reads.map fun rt => (rt.1.n : Int)).sum) ∧
    (st.transferred = 0 →
      (reads.map fun rt => (rt.1.n : Int)).sum = st.total →
      (prRun st reads).1.transferred = st.total) := by
  refine ⟨?_, ?_, prRun_transferred st reads, ?_⟩
  · induction reads generalizing st with
    | nil => simp [prRun]
    | cons rt rest ih =>
      rcases rt with ⟨r, t⟩
      simp only [prRun, List.map_cons]
      rw [ih]
      simp [prRead]
  · intro pre suf hsplit
    subst hsplit
    rw [prRun_transferred, prRun_transferred]
    have hsum : (0 : Int) ≤ ((suf.map fun rt => (rt.1.n : Int)).sum) := by
      refine List.sum_nonneg ?_
      intro x hx
      simp only [List.mem_map] at hx
      obtain ⟨rt, -, rfl⟩ := hx
      positivity
    simp only [List.map_append, List.sum_append]
    omega
  · intro h0 hsum
    rw [prRun_transferred, h0, hsum]
    simp

/-- Claim C6 exercised: two reads of 2 and 1 bytes from zero reach the
declared total of 3. -/
theorem progress_reader_passthrough_monotone_total_witness :
    (prRun ⟨0, 3⟩ [(⟨[5, 6], 2, false⟩, ⟨false, true⟩),
      (⟨[7], 1, true⟩, ⟨false, true⟩)]).1.transferred = 3 :=
  (progress_reader_passthrough_monotone_total ⟨0, 3⟩
    [(⟨[5, 6], 2, false⟩, ⟨false, true⟩), (⟨[7], 1, true⟩, ⟨false, true⟩)]).2.2.2
    rfl (by decide)

/-- Claim C7 fails: with a zero expected total, the very first read (zero
bytes, EOF) already satisfies transferred == total, so the reporting
branch runs, and with positive elapsed time the percentage division by
the zero total is performed — progressReader.Read has no zero-total
guard, only the elapsed > 0 guard. -/
theorem zero_total_report_counterexample :
    (prRead ⟨0, 0⟩ ⟨[], 0, true⟩ ⟨false, true⟩).divisionByTotal = true ∧
    (prRead ⟨0, 0⟩ ⟨[], 0, true⟩ ⟨false, true⟩).out = ⟨[], 0, true⟩ := by
  decide

/-- Claim C7 amended: reads are always forwarded unchanged; the reporting
computation — the percentage division by the total included — runs
exactly when the report condition fires and elapsed > 0, whatever the
total; a zero total does not skip it, since transferred == total fires
immediately (Go float division by zero is well defined, so the run
still proceeds). -/
theorem progress_report_guard_amended (st : PRState) (r : ReadResult)
    (t : ReadTiming) :
    ((prRead st r t).out = r) ∧
    ((prRead st r t).divisionByTotal = true →
      t.elapsedPos = true ∧ (prRead st r t).reportConditionHit = true) ∧
    (st.total = 0 → st.transferred + r.n = 0 → t.elapsedPos = true →
      (prRead st r t).divisionByTotal = true) := by
  refine ⟨rfl, ?_, ?_⟩
  · intro h
    unfold prRead at h
    simp only at h
    constructor
    · cases ht : t.elapsedPos
      · rw [ht] at h
        simp at h
      · rfl
    · unfold prRead
      simp only
      cases hg : (t.gapAtLeast5s || (st.transferred + r.n == st.total) || r.eof)
      · rw [hg] at h
        simp at h
      · simp
  · intro h0 hsum hel
    unfold prRead
    simp only
    rw [hel, h0]
    have : (st.transferred + r.n == (0 : Int)) = true := by
      simp [hsum]
    rw [this]
    simp

/-- Claim C7 amended, exercised: a 1-byte read that completes a 1-byte
transfer with positive elapsed time performs the reporting division. -/
theorem progress_report_guard_amended_witness :
    (prRead ⟨0, 0⟩ ⟨[], 0, false⟩ ⟨false, true⟩).divisionByTotal = true :=
  (progress_report_guard_amended ⟨0, 0⟩ ⟨[], 0, false⟩ ⟨false, true⟩).2.2
    rfl (by decide) rfl

/-- The environment backup.CreateBackup observes: whether the source
exists, the temp directory and username composing the default archive
name, whether a file already sits at the resolved backup path, whether
the platform createArchive succeeds, and the platform (governing the
archive extension). -/
structure BackupEnv where
  sourceExists : Bool
  tempDir : List Char
  username : List Char
  backupFileExists : Bool
  archiveOk : Bool
  isWindows : Bool

/-- backup.getArchiveExtension: "zip" on Windows, "tar.gz" elsewhere. -/
def getArchiveExtension (isWindows : Bool) : List Char :=
  if isWindows then ("zip").toList else ("tar.gz").toList

/-- backup package: const defaultCompressionLevel = 6. -/
def defaultCompressionLevel : Int := 6

/-- The backup path: the caller's --backup-path when nonempty, else
filepath.Join(os.TempDir(), username + "." + extension). -/
def resolveBackupPath (env : BackupEnv) (backupPath : List Char) : List Char :=
  if backupPath = [] then
    env.tempDir ++ '/' :: env.username ++ '.' :: getArchiveExtension env.isWindows
  else backupPath

/-- What a CreateBackup call did: its returned value (error message or
backup path), whether createArchive ran at all, and the compression
level handed to the encoder when it did. -/
structure CreateBackupResult where
  result : Except (List Char) (List Char)
  archiveRan : Bool
  usedLevel : Option Int

/-- backup.CreateBackup: validates the source, silently replaces an
out-of-range compression level by the default 6, resolves the backup
path, returns an already-existing file's path as success without any
traversal or archiving, and otherwise delegates to the platform
createArchive with the clamped level. -/
def CreateBackup (env : BackupEnv) (backupPath : List Char)
    (compressionLevel : Int) : CreateBackupResult :=
  if !env.sourceExists then
    ⟨.error ("source directory does not exist").toList, false, none⟩
  else
    let level := if compressionLevel < 0 || compressionLevel > 9 then
      defaultCompressionLevel else compressionLevel
    let path := resolveBackupPath env backupPath
    if env.backupFileExists then ⟨.ok path, false, none⟩
    else if env.archiveOk then ⟨.ok path, true, some level⟩
    else ⟨.error ("failed to create archive").toList, true, some level⟩

/-- Claim C8: whenever backup creation reaches the encoder, a compression
level outside 0..9 has been silently replaced by the documented default
6, and a level within 0..9 is used unchanged. -/
theorem compression_level_clamped_to_default (env : BackupEnv)
    (backupPath : List Char) (level : Int)
    (hrun : (CreateBackup env backupPath level).archiveRan = true) :
    ((level < 0 ∨ 9 < level) →
      (CreateBackup env backupPath level).usedLevel = some 6) ∧
    (0 ≤ level → level ≤ 9 →
      (CreateBackup env backupPath level).usedLevel = some level) := by
  rcases env with ⟨se, td, un, bfe, ao, iw⟩
  cases se with
  | false => simp [CreateBackup] at hrun
  | true =>
    cases bfe with
    | true => simp [CreateBackup] at hrun
    | false =>
      refine ⟨fun hl => ?_, fun h0 h9 => ?_⟩
      · have hc : (decide (level < 0) || decide (level > 9)) = true := by
          rcases hl with hl | hl <;> simp [hl]
        cases ao <;> simp [CreateBackup, defaultCompressionLevel, hc]
      · have hc : (decide (level < 0) || decide (level > 9)) = false := by
          simp only [Bool.or_eq_false_iff, decide_eq_false_iff_not, not_lt]
          omega
        cases ao <;> simp [CreateBackup, hc]

/-- Claim C8 exercised: level 42 is encoded as 6, level 3 as itself. -/
theorem compression_level_clamped_to_default_witness :
    (CreateBackup ⟨true, ("/tmp").toList, ("u").toList, false, true, false⟩
      [] 42).usedLevel = some 6 ∧
    (CreateBackup ⟨true, ("/tmp").toList, ("u").toList, false, true, false⟩
      [] 3).usedLevel = some 3 := by
  constructor
  · exact (compression_level_clamped_to_default
      ⟨true, ("/tmp").toList, ("u").toList, false, true, false⟩ [] 42 rfl).1
      (Or.inr (by norm_num))
  · exact (compression_level_clamped_to_default
      ⟨true, ("/tmp").toList, ("u").toList, false, true, false⟩ [] 3 rfl).2
      (by norm_num) (by norm_num)

/-- Claim C10: when a file already exists at the resolved backup path,
CreateBackup performs no traversal or archiving at all — it returns the
existing file's path as success, so that (possibly stale) archive is
what a subsequent upload transfers. -/
theorem existing_backup_file_short_circuits (env : BackupEnv)
    (backupPath : List Char) (level : Int)
    (hsrc : env.sourceExists = true) (hex : env.backupFileExists = true) :
    (CreateBackup env backupPath level).result =
      .ok (resolveBackupPath env backupPath) ∧
    (CreateBackup env backupPath level).archiveRan = false ∧
    (CreateBackup env backupPath level).usedLevel = none := by
  simp [CreateBackup, hsrc, hex]

/-- Claim C10 exercised: with the default path and an existing archive,
CreateBackup returns /tmp/u.tar.gz without archiving. -/
theorem existing_backup_file_short_circuits_witness :
    (CreateBackup ⟨true, ("/tmp").toList, ("u").toList, true, false, false⟩
        [] 6).result = .ok ("/tmp/u.tar.gz").toList ∧
    (CreateBackup ⟨true, ("/tmp").toList, ("u").toList, true, false, false⟩
        [] 6).archiveRan = false := by
  have h := existing_backup_file_short_circuits
    ⟨true, ("/tmp").toList, ("u").toList, true, false, false⟩ [] 6 rfl rfl
  refine ⟨?_, h.2.1⟩
  rw [h.1]
  rw [show resolveBackupPath
      ⟨true, ("/tmp").toList, ("u").toList, true, false, false⟩ [] =
      ("/tmp/u.tar.gz").toList from by decide]

/-- One default key location as UploadToSSHGoph probes it: whether os.Stat
succeeds there and whether goph.Key can load the key. -/
structure DefaultKey where
  path : List Char
  statOk : Bool
  loadOk : Bool

/-- The credential environment of UploadToSSHGoph: whether the configured
key file loads, and the states of the default locations
(~/.ssh/id_ed25519, id_rsa, id_ecdsa, probed in that order). -/
structure SSHEnv where
  keyFileLoadOk : Bool
  defaultKeys : List DefaultKey

/-- The two SSHConfig fields involved in credential selection. -/
structure SSHConfigM where
  keyFile : List Char
  password : List Char

inductive AuthMethodM where
  | key (path : List Char)
  | password

/-- The default-location loop of UploadToSSHGoph: the first key whose stat
and load both succeed is used (a failed load leaves auth nil and the
loop moves on). -/
def findDefaultKey : List DefaultKey → Option (List Char)
  | [] => none
  | k :: rest => if k.statOk && k.loadOk then some k.path else findDefaultKey rest

/-- The authentication selection of UploadToSSHGoph (ssh_goph.go): an
explicitly configured key file is used first (its load failure is an
immediate error, no fallback), else a configured password, else
discovery in the default locations; when nothing is found the function
returns the "no SSH keys found" error. -/
def configureAuth (cfg : SSHConfigM) (env : SSHEnv) :
    Except (List Char) AuthMethodM :=
  if cfg.keyFile ≠ [] then
    if env.keyFileLoadOk then .ok (.key cfg.keyFile)
    else .error ("failed to load SSH key").toList
  else if cfg.password ≠ [] then .ok .password
  else
    match findDefaultKey env.defaultKeys with
    | some p => .ok (.key p)
    | none => .error ("no SSH keys found in default locations").toList

/-- UploadToSSHGoph up to and including goph.NewConn: the connection is
attempted only after authentication was configured. -/
structure GophPhase where
  auth : Except (List Char) AuthMethodM
  connectAttempted : Bool

def uploadToSSHGophAuthPhase (cfg : SSHConfigM) (env : SSHEnv) : GophPhase :=
  match configureAuth cfg env with
  | .error e => ⟨.error e, false⟩
  | .ok m => ⟨.ok m, true⟩

/-- Claim C9: secure-copy authentication selects a credential in strict
priority order — configured key file, else configured password, else
default-location discovery — and when none of the three yields a usable
credential the upload fails with an authentication error before any
connection or transfer is attempted. -/
theorem ssh_auth_priority_and_fail_before_connect (cfg : SSHConfigM)
    (env : SSHEnv) :
    (cfg.keyFile ≠ [] →
      (uploadToSSHGophAuthPhase cfg env).auth =
        (if env.keyFileLoadOk then .ok (.key cfg.keyFile)
         else .error ("failed to load SSH key").toList)) ∧
    (cfg.keyFile = [] → cfg.password ≠ [] →
      (uploadToSSHGophAuthPhase cfg env).auth = .ok .password) ∧
    (cfg.keyFile = [] → cfg.password = [] →
      ∀ p, findDefaultKey env.defaultKeys = some p →
        (uploadToSSHGophAuthPhase cfg env).auth = .ok (.key p)) ∧
    ((cfg.keyFile = [] ∨ env.keyFileLoadOk = false) → cfg.password = [] →
      findDefaultKey env.defaultKeys = none →
        (uploadToSSHGophAuthPhase cfg env).connectAttempted = false ∧
        ∃ e, (uploadToSSHGophAuthPhase cfg env).auth = .error e) := by
  refine ⟨?_, ?_, ?_, ?_⟩
  · intro hk
    unfold uploadToSSHGophAuthPhase configureAuth
    rw [if_pos hk]
    cases env.keyFileLoadOk <;> simp
  · intro hk hp
    unfold uploadToSSHGophAuthPhase configureAuth
    rw [if_neg (by simp [hk]), if_pos hp]
  · intro hk hp p hfind
    unfold uploadToSSHGophAuthPhase configureAuth
    rw [if_neg (by simp [hk]), if_neg (by simp [hp]), hfind]
  · intro hk hp hfind
    unfold uploadToSSHGophAuthPhase configureAuth
    rcases hk with hk | hk
    · rw [if_neg (by simp [hk]), if_neg (by simp [hp]), hfind]
      exact ⟨rfl, _, rfl⟩
    · by_cases hkf : cfg.keyFile = []
      · rw [if_neg (by simp [hkf]), if_neg (by simp [hp]), hfind]
        exact ⟨rfl, _, rfl⟩
      · rw [if_pos hkf, if_neg (by simp [hk])]
        exact ⟨rfl, _, rfl⟩

/-- Claim C9 exercised: no key file, no password, no default key — the
upload stops with an authentication error and never connects. -/
theorem ssh_auth_priority_and_fail_before_connect_witness :
    (uploadToSSHGophAuthPhase ⟨[], []⟩ ⟨false, []⟩).connectAttempted = false ∧
    ∃ e, (uploadToSSHGophAuthPhase ⟨[], []⟩ ⟨false, []⟩).auth = .error e :=
  (ssh_auth_priority_and_fail_before_connect ⟨[], []⟩ ⟨false, []⟩).2.2.2
    (Or.inl rfl) rfl rfl

end BackupHome
